import Mathlib

set_option maxRecDepth 8192

/-!
Verification of the block-scan test program of the cudahandbook repository
(src/scan/warp/testScanBlock.cu).

Modelling choices, shared by all definitions below:

- The C element type is int (32-bit).  Signed overflow is undefined behaviour
  in C, so the scans are modelled over the mathematical integers Int; every
  claim about sums is stated over the same Int addition that the code folds.
- C arrays are modelled as Array Int together with an element count N.  An
  in-bounds read in[i] becomes (in.getD i 0) and an in-bounds write
  out[i] = v becomes (out.setD i v); both are the identity outside the
  array, which is only reached where the C program would be out of bounds.
- Counted C loops (for j = 0; j < period; j++) are embedded with an explicit
  countdown argument equal to the number of remaining iterations, so all
  recursions are structural.  The outer periodic loops
  (for i = i0; i < N; i += B) keep the i < N test verbatim and receive fuel N,
  which is sufficient because B is a positive compile-time block size, hence
  the loop runs at most N iterations.
- The CUDA grid is modelled sequentially: the blocks of one launch run one
  after the other in ascending block index, and inside a block the threads of
  one loop iteration write their slots in ascending thread index.  Every
  claim proved below concerns output values on which all interleavings agree,
  because any two writes to the same position carry the same value.
-/

/-- The ScanType enum of testScanBlock.cu (lines 60-62). -/
inductive ScanType where
  | Inclusive : ScanType
  | Exclusive : ScanType
deriving DecidableEq

/-- Sum of f over the index range [a, a+k), the mathematical yardstick used
to state what the periodic scans compute. -/
def rangeSum (f : Nat → Int) (a : Nat) : Nat → Int
  | 0 => 0
  | k+1 => rangeSum f a k + f (a + k)

theorem rangeSum_succ_front (f : Nat → Int) (a k : Nat) :
    rangeSum f a (k+1) = f a + rangeSum f (a+1) k := by
  induction k with
  | zero => simp [rangeSum]
  | succ k ih =>
      rw [show k + 1 + 1 = (k+1) + 1 from rfl, rangeSum, ih, rangeSum]
      have harg : a + (k + 1) = a + 1 + k := by omega
      rw [harg]
      ring

theorem rangeSum_congr (f g : Nat → Int) (a : Nat) :
    ∀ k, (∀ t, t < k → f (a+t) = g (a+t)) → rangeSum f a k = rangeSum g a k := by
  intro k
  induction k with
  | zero => intro _; rfl
  | succ k ih =>
      intro h
      rw [rangeSum, rangeSum, ih (fun t ht => h t (by omega)), h k (by omega)]

theorem arrGetD_setD (a : Array Int) (i p : Nat) (v : Int) :
    (a.setD i v).getD p 0 = if p = i ∧ p < a.size then v else a.getD p 0 := by
  by_cases hi : i < a.size
  · have hset : a.setD i v = a.set ⟨i, hi⟩ v := by
      simp [Array.setD, hi]
    rw [hset]
    by_cases hp : p < a.size
    · rw [Array.getD_eq_get?, Array.getD_eq_get?]
      rw [Array.getElem?_lt _ (by simpa using hp), Array.getElem?_lt _ hp]
      rw [Array.getElem_set]
      by_cases hpi : p = i
      · simp [hpi, hi, hp]
      · simp [hpi, Ne.symm hpi]
    · rw [Array.getD_eq_get?, Array.getD_eq_get?]
      rw [Array.getElem?_ge _ (by simpa using Nat.le_of_not_lt hp),
          Array.getElem?_ge _ (Nat.le_of_not_lt hp)]
      simp
      omega
  · have hset : a.setD i v = a := by
      simp [Array.setD, hi]
    rw [hset]
    have : ¬ (p = i ∧ p < a.size) := by omega
    simp [this]

theorem arrGetD_eq_getElem (a : Array Int) (p : Nat) (h : p < a.size) :
    a.getD p 0 = a[p] := by
  rw [Array.getD_eq_get?, Array.getElem?_lt _ h]
  rfl

/-- Inner loop of ScanExclusiveCPUPeriodic (testScanBlock.cu lines 68-74):
for (j = 0; j < period; j++) { next = in[i+j]; out[i+j] = sum; sum += next; }.
rem counts the remaining iterations (period - j). -/
def exclInner (inA : Array Int) (base : Nat) : Nat → Nat → Int → Array Int → Array Int
  | 0, _, _, out => out
  | rem+1, j, sum, out =>
      exclInner inA base rem (j+1) (sum + inA.getD (base+j) 0) (out.setD (base+j) sum)

/-- Inner loop of ScanInclusiveCPUPeriodic (testScanBlock.cu lines 82-87):
for (j = 0; j < period; j++) { sum += in[i+j]; out[i+j] = sum; }. -/
def inclInner (inA : Array Int) (base : Nat) : Nat → Nat → Int → Array Int → Array Int
  | 0, _, _, out => out
  | rem+1, j, sum, out =>
      inclInner inA base rem (j+1) (sum + inA.getD (base+j) 0)
        (out.setD (base+j) (sum + inA.getD (base+j) 0))

theorem exclInner_size (inA : Array Int) (base : Nat) :
    ∀ rem j sum out, (exclInner inA base rem j sum out).size = out.size := by
  intro rem
  induction rem with
  | zero => intro j sum out; rfl
  | succ rem ih =>
      intro j sum out
      simp only [exclInner]
      rw [ih, Array.size_setD]

theorem inclInner_size (inA : Array Int) (base : Nat) :
    ∀ rem j sum out, (inclInner inA base rem j sum out).size = out.size := by
  intro rem
  induction rem with
  | zero => intro j sum out; rfl
  | succ rem ih =>
      intro j sum out
      simp only [inclInner]
      rw [ih, Array.size_setD]

theorem exclInner_getD (inA : Array Int) (base : Nat) :
    ∀ rem j sum out p,
      (exclInner inA base rem j sum out).getD p 0 =
        if base + j ≤ p ∧ p < base + j + rem ∧ p < out.size
        then sum + rangeSum (fun t => inA.getD t 0) (base + j) (p - (base + j))
        else out.getD p 0 := by
  intro rem
  induction rem with
  | zero =>
      intro j sum out p
      simp only [exclInner]
      have hc : ¬ (base + j ≤ p ∧ p < base + j + 0 ∧ p < out.size) := by omega
      rw [if_neg hc]
  | succ rem ih =>
      intro j sum out p
      simp only [exclInner]
      rw [ih]
      rw [Array.size_setD]
      by_cases hA : base + (j+1) ≤ p ∧ p < base + (j+1) + rem ∧ p < out.size
      · rw [if_pos hA]
        have hB2 : base + j ≤ p ∧ p < base + j + (rem+1) ∧ p < out.size := by omega
        rw [if_pos hB2]
        have hd : p - (base + j) = (p - (base + (j+1))) + 1 := by omega
        rw [hd, rangeSum_succ_front]
        have harg : base + j + 1 = base + (j + 1) := by omega
        rw [harg]
        ring
      · rw [if_neg hA]
        rw [arrGetD_setD]
        by_cases hE : p = base + j ∧ p < out.size
        · rw [if_pos hE]
          have hB2 : base + j ≤ p ∧ p < base + j + (rem+1) ∧ p < out.size := by omega
          rw [if_pos hB2]
          have hd : p - (base + j) = 0 := by omega
          rw [hd]
          simp [rangeSum]
        · rw [if_neg hE]
          have hB2 : ¬ (base + j ≤ p ∧ p < base + j + (rem+1) ∧ p < out.size) := by omega
          rw [if_neg hB2]

theorem inclInner_getD (inA : Array Int) (base : Nat) :
    ∀ rem j sum out p,
      (inclInner inA base rem j sum out).getD p 0 =
        if base + j ≤ p ∧ p < base + j + rem ∧ p < out.size
        then sum + rangeSum (fun t => inA.getD t 0) (base + j) (p - (base + j) + 1)
        else out.getD p 0 := by
  intro rem
  induction rem with
  | zero =>
      intro j sum out p
      simp only [inclInner]
      have hc : ¬ (base + j ≤ p ∧ p < base + j + 0 ∧ p < out.size) := by omega
      rw [if_neg hc]
  | succ rem ih =>
      intro j sum out p
      simp only [inclInner]
      rw [ih]
      rw [Array.size_setD]
      by_cases hA : base + (j+1) ≤ p ∧ p < base + (j+1) + rem ∧ p < out.size
      · rw [if_pos hA]
        have hB2 : base + j ≤ p ∧ p < base + j + (rem+1) ∧ p < out.size := by omega
        rw [if_pos hB2]
        have hd : p - (base + j) + 1 = (p - (base + (j+1)) + 1) + 1 := by omega
        rw [hd, rangeSum_succ_front (fun t => inA.getD t 0) (base + j)]
        have harg : base + j + 1 = base + (j + 1) := by omega
        rw [harg]
        ring
      · rw [if_neg hA]
        rw [arrGetD_setD]
        by_cases hE : p = base + j ∧ p < out.size
        · rw [if_pos hE]
          have hB2 : base + j ≤ p ∧ p < base + j + (rem+1) ∧ p < out.size := by omega
          rw [if_pos hB2]
          have hd : p - (base + j) + 1 = 1 := by omega
          rw [hd]
          have hp : p = base + j := hE.1
          simp [rangeSum, hp]
        · rw [if_neg hE]
          have hB2 : ¬ (base + j ≤ p ∧ p < base + j + (rem+1) ∧ p < out.size) := by omega
          rw [if_neg hB2]

/-- Inner loop of ScanExclusiveCPUPeriodic when the caller passes out == in:
the read next = in[i+j] happens before the write out[i+j] = sum, so the
aliased call reads and writes one buffer. -/
def exclInPlaceInner (base : Nat) : Nat → Nat → Int → Array Int → Array Int
  | 0, _, _, buf => buf
  | rem+1, j, sum, buf =>
      exclInPlaceInner base rem (j+1) (sum + buf.getD (base+j) 0) (buf.setD (base+j) sum)

/-- Inner loop of ScanInclusiveCPUPeriodic when the caller passes out == in. -/
def inclInPlaceInner (base : Nat) : Nat → Nat → Int → Array Int → Array Int
  | 0, _, _, buf => buf
  | rem+1, j, sum, buf =>
      inclInPlaceInner base rem (j+1) (sum + buf.getD (base+j) 0)
        (buf.setD (base+j) (sum + buf.getD (base+j) 0))

theorem exclInPlaceInner_eq (base : Nat) :
    ∀ rem j sum (buf inA : Array Int),
      (∀ t, base + j ≤ t → buf.getD t 0 = inA.getD t 0) →
      exclInPlaceInner base rem j sum buf = exclInner inA base rem j sum buf := by
  intro rem
  induction rem with
  | zero => intro j sum buf inA _; rfl
  | succ rem ih =>
      intro j sum buf inA hagree
      simp only [exclInPlaceInner, exclInner]
      rw [hagree (base+j) (by omega)]
      apply ih
      intro t ht
      rw [arrGetD_setD]
      have hne : ¬ (t = base + j ∧ t < buf.size) := by omega
      rw [if_neg hne]
      exact hagree t (by omega)

theorem inclInPlaceInner_eq (base : Nat) :
    ∀ rem j sum (buf inA : Array Int),
      (∀ t, base + j ≤ t → buf.getD t 0 = inA.getD t 0) →
      inclInPlaceInner base rem j sum buf = inclInner inA base rem j sum buf := by
  intro rem
  induction rem with
  | zero => intro j sum buf inA _; rfl
  | succ rem ih =>
      intro j sum buf inA hagree
      simp only [inclInPlaceInner, inclInner]
      rw [hagree (base+j) (by omega)]
      apply ih
      intro t ht
      rw [arrGetD_setD]
      have hne : ¬ (t = base + j ∧ t < buf.size) := by omega
      rw [if_neg hne]
      exact hagree t (by omega)

/-- One loop iteration of the CUDA block-scan kernels, seen from the whole
block: every thread tid in [0, blockDim) writes out[i+tid] = v i tid, where v
is the per-thread value the kernel body computes for segment start i.  The
threads are modelled in ascending tid order; rem counts remaining threads. -/
def writeSeg (v : Nat → Nat → Int) (base : Nat) : Nat → Nat → Array Int → Array Int
  | 0, _, out => out
  | rem+1, tid, out => writeSeg v base rem (tid+1) (out.setD (base+tid) (v base tid))

theorem writeSeg_size (v : Nat → Nat → Int) (base : Nat) :
    ∀ rem tid out, (writeSeg v base rem tid out).size = out.size := by
  intro rem
  induction rem with
  | zero => intro tid out; rfl
  | succ rem ih =>
      intro tid out
      simp only [writeSeg]
      rw [ih, Array.size_setD]

theorem writeSeg_getD (v : Nat → Nat → Int) (base : Nat) :
    ∀ rem tid out p,
      (writeSeg v base rem tid out).getD p 0 =
        if base + tid ≤ p ∧ p < base + tid + rem ∧ p < out.size
        then v base (p - base)
        else out.getD p 0 := by
  intro rem
  induction rem with
  | zero =>
      intro tid out p
      simp only [writeSeg]
      have hc : ¬ (base + tid ≤ p ∧ p < base + tid + 0 ∧ p < out.size) := by omega
      rw [if_neg hc]
  | succ rem ih =>
      intro tid out p
      simp only [writeSeg]
      rw [ih]
      rw [Array.size_setD]
      by_cases hA : base + (tid+1) ≤ p ∧ p < base + (tid+1) + rem ∧ p < out.size
      · rw [if_pos hA]
        have hB2 : base + tid ≤ p ∧ p < base + tid + (rem+1) ∧ p < out.size := by omega
        rw [if_pos hB2]
      · rw [if_neg hA]
        rw [arrGetD_setD]
        by_cases hE : p = base + tid ∧ p < out.size
        · rw [if_pos hE]
          have hB2 : base + tid ≤ p ∧ p < base + tid + (rem+1) ∧ p < out.size := by omega
          rw [if_pos hB2]
          have hd : p - base = tid := by omega
          rw [hd]
        · rw [if_neg hE]
          have hB2 : ¬ (base + tid ≤ p ∧ p < base + tid + (rem+1) ∧ p < out.size) := by omega
          rw [if_neg hB2]

/-- Outer loop skeleton shared by the periodic CPU reference scans and by the
per-block grid-stride loops of the kernels:
for (i = i0; i < N; i += B) out = step i out.  The i < N test is kept
verbatim; fuel bounds the iteration count and fuel = N is always enough
because the block size B is a positive constant. -/
def periodicOuter (step : Nat → Array Int → Array Int) (N B : Nat) :
    Nat → Nat → Array Int → Array Int
  | 0, _, out => out
  | fuel+1, i, out =>
      if i < N then periodicOuter step N B fuel (i + B) (step i out) else out

theorem periodicOuter_size (step : Nat → Array Int → Array Int) (N B : Nat)
    (hstep : ∀ i out, (step i out).size = out.size) :
    ∀ fuel i out, (periodicOuter step N B fuel i out).size = out.size := by
  intro fuel
  induction fuel with
  | zero => intro i out; rfl
  | succ fuel ih =>
      intro i out
      simp only [periodicOuter]
      by_cases hiN : i < N
      · rw [if_pos hiN, ih, hstep]
      · rw [if_neg hiN]

theorem periodicOuter_getD (step : Nat → Array Int → Array Int) (N B : Nat)
    (sv : Nat → Array Int → Nat → Int)
    (hB : 0 < B)
    (hsize : ∀ i out, (step i out).size = out.size)
    (hstep : ∀ i out p, (step i out).getD p 0 =
        if i ≤ p ∧ p < i + B ∧ p < out.size then sv i out p else out.getD p 0)
    (hsv : ∀ i out out' p, (∀ q, i ≤ q → out.getD q 0 = out'.getD q 0) →
        sv i out p = sv i out' p) :
    ∀ fuel i out p, N ≤ i + fuel * B →
      (periodicOuter step N B fuel i out).getD p 0 =
        if i ≤ p ∧ i + B * ((p - i) / B) < N ∧ p < out.size
        then sv (i + B * ((p - i) / B)) out p
        else out.getD p 0 := by
  intro fuel
  induction fuel with
  | zero =>
      intro i out p hfuel
      simp only [periodicOuter]
      have hc : ¬ (i ≤ p ∧ i + B * ((p - i) / B) < N ∧ p < out.size) := by
        rintro ⟨h1, h2, h3⟩
        omega
      rw [if_neg hc]
  | succ fuel ih =>
      intro i out p hfuel
      simp only [periodicOuter]
      by_cases hiN : i < N
      · rw [if_pos hiN]
        have hfuel2 : N ≤ (i + B) + fuel * B := by
          have hmul : (fuel + 1) * B = fuel * B + B := by ring
          omega
        rw [ih (i+B) (step i out) p hfuel2]
        rw [hsize]
        by_cases hcase : i + B ≤ p
        · have harith : i + B * ((p - i) / B) = (i + B) + B * ((p - (i + B)) / B) := by
            have h1 : p - i = (p - (i + B)) + B := by omega
            rw [h1, Nat.add_div_right _ hB]
            ring
          by_cases hcond : (i + B) + B * ((p - (i + B)) / B) < N ∧ p < out.size
          · rw [if_pos ⟨hcase, hcond.1, hcond.2⟩]
            have hgoal : i ≤ p ∧ i + B * ((p - i) / B) < N ∧ p < out.size := by
              refine ⟨by omega, ?_, hcond.2⟩
              rw [harith]
              exact hcond.1
            rw [if_pos hgoal]
            rw [harith]
            apply hsv
            intro q hq
            rw [hstep]
            have hqc : ¬ (i ≤ q ∧ q < i + B ∧ q < out.size) := by omega
            rw [if_neg hqc]
          · rw [if_neg (by rintro ⟨h1, h2, h3⟩; exact hcond ⟨h2, h3⟩)]
            rw [hstep]
            have hqc : ¬ (i ≤ p ∧ p < i + B ∧ p < out.size) := by omega
            rw [if_neg hqc]
            have hgoal : ¬ (i ≤ p ∧ i + B * ((p - i) / B) < N ∧ p < out.size) := by
              rintro ⟨h1, h2, h3⟩
              rw [harith] at h2
              exact hcond ⟨h2, h3⟩
            rw [if_neg hgoal]
        · have hnc : ¬ (i + B ≤ p ∧ (i + B) + B * ((p - (i + B)) / B) < N ∧ p < out.size) := by
            rintro ⟨h1, _, _⟩
            exact hcase h1
          rw [if_neg hnc]
          rw [hstep]
          by_cases hwin : i ≤ p
          · have hq0 : (p - i) / B = 0 := Nat.div_eq_of_lt (by omega)
            by_cases hsz : p < out.size
            · rw [if_pos ⟨hwin, by omega, hsz⟩]
              rw [if_pos ⟨hwin, by simpa [hq0] using hiN, hsz⟩]
              simp [hq0]
            · rw [if_neg (by rintro ⟨_, _, h3⟩; exact hsz h3)]
              rw [if_neg (by rintro ⟨_, _, h3⟩; exact hsz h3)]
          · rw [if_neg (by rintro ⟨h1, _, _⟩; exact hwin h1)]
            rw [if_neg (by rintro ⟨h1, _, _⟩; exact hwin h1)]
      · rw [if_neg hiN]
        have hc : ¬ (i ≤ p ∧ i + B * ((p - i) / B) < N ∧ p < out.size) := by
          rintro ⟨h1, h2, h3⟩
          omega
        rw [if_neg hc]

/-- ScanExclusiveCPUPeriodic (testScanBlock.cu lines 64-76), C argument order
(out, in, N), with the template parameter period first. -/
def ScanExclusiveCPUPeriodic (period : Nat) (out inA : Array Int) (N : Nat) : Array Int :=
  periodicOuter (fun i buf => exclInner inA i period 0 0 buf) N period N 0 out

/-- ScanInclusiveCPUPeriodic (testScanBlock.cu lines 78-89), C argument order
(out, in, N), with the template parameter period first. -/
def ScanInclusiveCPUPeriodic (period : Nat) (out inA : Array Int) (N : Nat) : Array Int :=
  periodicOuter (fun i buf => inclInner inA i period 0 0 buf) N period N 0 out

theorem fuelEnough (N period : Nat) (hB : 0 < period) : N ≤ 0 + N * period := by
  have h := Nat.mul_le_mul_left N hB
  simpa using h

theorem ScanExclusiveCPUPeriodic_getD (period N : Nat) (inA out : Array Int)
    (hB : 0 < period) (p : Nat) :
    (ScanExclusiveCPUPeriodic period out inA N).getD p 0 =
      if period * (p / period) < N ∧ p < out.size
      then rangeSum (fun t => inA.getD t 0) (period * (p / period)) (p % period)
      else out.getD p 0 := by
  unfold ScanExclusiveCPUPeriodic
  have hsize : ∀ i out0,
      ((fun i buf => exclInner inA i period 0 0 buf) i out0).size = out0.size :=
    fun i out0 => exclInner_size inA i period 0 0 out0
  have hstep : ∀ i out0 q,
      ((fun i buf => exclInner inA i period 0 0 buf) i out0).getD q 0 =
        if i ≤ q ∧ q < i + period ∧ q < out0.size
        then (fun i (_ : Array Int) q =>
          rangeSum (fun t => inA.getD t 0) i (q - i)) i out0 q
        else out0.getD q 0 := by
    intro i out0 q
    have h := exclInner_getD inA i period 0 0 out0 q
    simpa using h
  have hsv : ∀ i (o o' : Array Int) q, (∀ r, i ≤ r → o.getD r 0 = o'.getD r 0) →
      (fun i (_ : Array Int) q => rangeSum (fun t => inA.getD t 0) i (q - i)) i o q =
      (fun i (_ : Array Int) q => rangeSum (fun t => inA.getD t 0) i (q - i)) i o' q :=
    fun _ _ _ _ _ => rfl
  rw [periodicOuter_getD _ N period _ hB hsize hstep hsv N 0 out p
      (fuelEnough N period hB)]
  have hmod := Nat.mod_add_div p period
  simp only [Nat.zero_add, Nat.sub_zero]
  have hsub : p - period * (p / period) = p % period := by omega
  rw [hsub]
  have htriv : (0 ≤ p ∧ period * (p / period) < N ∧ p < out.size) ↔
      (period * (p / period) < N ∧ p < out.size) := by
    constructor
    · rintro ⟨_, h2, h3⟩; exact ⟨h2, h3⟩
    · rintro ⟨h2, h3⟩; exact ⟨Nat.zero_le p, h2, h3⟩
  rw [if_congr htriv rfl rfl]

theorem ScanInclusiveCPUPeriodic_getD (period N : Nat) (inA out : Array Int)
    (hB : 0 < period) (p : Nat) :
    (ScanInclusiveCPUPeriodic period out inA N).getD p 0 =
      if period * (p / period) < N ∧ p < out.size
      then rangeSum (fun t => inA.getD t 0) (period * (p / period)) (p % period + 1)
      else out.getD p 0 := by
  unfold ScanInclusiveCPUPeriodic
  have hsize : ∀ i out0,
      ((fun i buf => inclInner inA i period 0 0 buf) i out0).size = out0.size :=
    fun i out0 => inclInner_size inA i period 0 0 out0
  have hstep : ∀ i out0 q,
      ((fun i buf => inclInner inA i period 0 0 buf) i out0).getD q 0 =
        if i ≤ q ∧ q < i + period ∧ q < out0.size
        then (fun i (_ : Array Int) q =>
          rangeSum (fun t => inA.getD t 0) i (q - i + 1)) i out0 q
        else out0.getD q 0 := by
    intro i out0 q
    have h := inclInner_getD inA i period 0 0 out0 q
    simpa using h
  have hsv : ∀ i (o o' : Array Int) q, (∀ r, i ≤ r → o.getD r 0 = o'.getD r 0) →
      (fun i (_ : Array Int) q => rangeSum (fun t => inA.getD t 0) i (q - i + 1)) i o q =
      (fun i (_ : Array Int) q => rangeSum (fun t => inA.getD t 0) i (q - i + 1)) i o' q :=
    fun _ _ _ _ _ => rfl
  rw [periodicOuter_getD _ N period _ hB hsize hstep hsv N 0 out p
      (fuelEnough N period hB)]
  have hmod := Nat.mod_add_div p period
  simp only [Nat.zero_add, Nat.sub_zero]
  have hsub : p - period * (p / period) = p % period := by omega
  rw [hsub]
  have htriv : (0 ≤ p ∧ period * (p / period) < N ∧ p < out.size) ↔
      (period * (p / period) < N ∧ p < out.size) := by
    constructor
    · rintro ⟨_, h2, h3⟩; exact ⟨h2, h3⟩
    · rintro ⟨h2, h3⟩; exact ⟨Nat.zero_le p, h2, h3⟩
  rw [if_congr htriv rfl rfl]

theorem ScanExclusiveCPUPeriodic_size (period N : Nat) (inA out : Array Int) :
    (ScanExclusiveCPUPeriodic period out inA N).size = out.size :=
  periodicOuter_size _ N period
    (fun i out0 => exclInner_size inA i period 0 0 out0) N 0 out

theorem ScanInclusiveCPUPeriodic_size (period N : Nat) (inA out : Array Int) :
    (ScanInclusiveCPUPeriodic period out inA N).size = out.size :=
  periodicOuter_size _ N period
    (fun i out0 => inclInner_size inA i period 0 0 out0) N 0 out

/-- ScanCPUBlock (testScanBlock.cu lines 101-123): a switch on numThreads with
cases 256, 512 and 1024, each dispatching on the scan type and returning; the
default case returns without touching the output.  There is no case for 128.
Embedded as an if chain because every reachable switch case returns. -/
def ScanCPUBlock (st : ScanType) (out inA : Array Int) (N : Nat) (numThreads : Nat) :
    Array Int :=
  if numThreads = 256 then
    match st with
    | ScanType.Exclusive => ScanExclusiveCPUPeriodic 256 out inA N
    | ScanType.Inclusive => ScanInclusiveCPUPeriodic 256 out inA N
  else if numThreads = 512 then
    match st with
    | ScanType.Exclusive => ScanExclusiveCPUPeriodic 512 out inA N
    | ScanType.Inclusive => ScanInclusiveCPUPeriodic 512 out inA N
  else if numThreads = 1024 then
    match st with
    | ScanType.Exclusive => ScanExclusiveCPUPeriodic 1024 out inA N
    | ScanType.Inclusive => ScanInclusiveCPUPeriodic 1024 out inA N
  else out

/-- ScanExclusiveCPUPeriodic called with out == in (aliased buffers): the
same loops, reading and writing the single buffer. -/
def ScanExclusiveCPUPeriodicInPlace (period : Nat) (buf : Array Int) (N : Nat) : Array Int :=
  periodicOuter (fun i b => exclInPlaceInner i period 0 0 b) N period N 0 buf

/-- ScanInclusiveCPUPeriodic called with out == in (aliased buffers). -/
def ScanInclusiveCPUPeriodicInPlace (period : Nat) (buf : Array Int) (N : Nat) : Array Int :=
  periodicOuter (fun i b => inclInPlaceInner i period 0 0 b) N period N 0 buf

theorem ScanExclusiveCPUPeriodicInPlace_getD (period N : Nat) (buf : Array Int)
    (hB : 0 < period) (p : Nat) :
    (ScanExclusiveCPUPeriodicInPlace period buf N).getD p 0 =
      if period * (p / period) < N ∧ p < buf.size
      then rangeSum (fun t => buf.getD t 0) (period * (p / period)) (p % period)
      else buf.getD p 0 := by
  unfold ScanExclusiveCPUPeriodicInPlace
  have hstepEq : ∀ i (b : Array Int),
      exclInPlaceInner i period 0 0 b = exclInner b i period 0 0 b :=
    fun i b => exclInPlaceInner_eq i period 0 0 b b (fun _ _ => rfl)
  have hsize : ∀ i (b : Array Int),
      ((fun i b => exclInPlaceInner i period 0 0 b) i b).size = b.size := by
    intro i b
    simp only [hstepEq]
    exact exclInner_size b i period 0 0 b
  have hstep : ∀ i (b : Array Int) q,
      ((fun i b => exclInPlaceInner i period 0 0 b) i b).getD q 0 =
        if i ≤ q ∧ q < i + period ∧ q < b.size
        then (fun i (o : Array Int) q =>
          rangeSum (fun t => o.getD t 0) i (q - i)) i b q
        else b.getD q 0 := by
    intro i b q
    simp only [hstepEq]
    have h := exclInner_getD b i period 0 0 b q
    simpa using h
  have hsv : ∀ i (o o' : Array Int) q, (∀ r, i ≤ r → o.getD r 0 = o'.getD r 0) →
      (fun i (o : Array Int) q => rangeSum (fun t => o.getD t 0) i (q - i)) i o q =
      (fun i (o : Array Int) q => rangeSum (fun t => o.getD t 0) i (q - i)) i o' q := by
    intro i o o' q hagree
    exact rangeSum_congr _ _ i (q - i) (fun t _ => hagree (i + t) (by omega))
  rw [periodicOuter_getD _ N period _ hB hsize hstep hsv N 0 buf p
      (fuelEnough N period hB)]
  have hmod := Nat.mod_add_div p period
  simp only [Nat.zero_add, Nat.sub_zero]
  have hsub : p - period * (p / period) = p % period := by omega
  rw [hsub]
  have htriv : (0 ≤ p ∧ period * (p / period) < N ∧ p < buf.size) ↔
      (period * (p / period) < N ∧ p < buf.size) := by
    constructor
    · rintro ⟨_, h2, h3⟩; exact ⟨h2, h3⟩
    · rintro ⟨h2, h3⟩; exact ⟨Nat.zero_le p, h2, h3⟩
  rw [if_congr htriv rfl rfl]

theorem ScanInclusiveCPUPeriodicInPlace_getD (period N : Nat) (buf : Array Int)
    (hB : 0 < period) (p : Nat) :
    (ScanInclusiveCPUPeriodicInPlace period buf N).getD p 0 =
      if period * (p / period) < N ∧ p < buf.size
      then rangeSum (fun t => buf.getD t 0) (period * (p / period)) (p % period + 1)
      else buf.getD p 0 := by
  unfold ScanInclusiveCPUPeriodicInPlace
  have hstepEq : ∀ i (b : Array Int),
      inclInPlaceInner i period 0 0 b = inclInner b i period 0 0 b :=
    fun i b => inclInPlaceInner_eq i period 0 0 b b (fun _ _ => rfl)
  have hsize : ∀ i (b : Array Int),
      ((fun i b => inclInPlaceInner i period 0 0 b) i b).size = b.size := by
    intro i b
    simp only [hstepEq]
    exact inclInner_size b i period 0 0 b
  have hstep : ∀ i (b : Array Int) q,
      ((fun i b => inclInPlaceInner i period 0 0 b) i b).getD q 0 =
        if i ≤ q ∧ q < i + period ∧ q < b.size
        then (fun i (o : Array Int) q =>
          rangeSum (fun t => o.getD t 0) i (q - i + 1)) i b q
        else b.getD q 0 := by
    intro i b q
    simp only [hstepEq]
    have h := inclInner_getD b i period 0 0 b q
    simpa using h
  have hsv : ∀ i (o o' : Array Int) q, (∀ r, i ≤ r → o.getD r 0 = o'.getD r 0) →
      (fun i (o : Array Int) q => rangeSum (fun t => o.getD t 0) i (q - i + 1)) i o q =
      (fun i (o : Array Int) q => rangeSum (fun t => o.getD t 0) i (q - i + 1)) i o' q := by
    intro i o o' q hagree
    exact rangeSum_congr _ _ i (q - i + 1) (fun t _ => hagree (i + t) (by omega))
  rw [periodicOuter_getD _ N period _ hB hsize hstep hsv N 0 buf p
      (fuelEnough N period hB)]
  have hmod := Nat.mod_add_div p period
  simp only [Nat.zero_add, Nat.sub_zero]
  have hsub : p - period * (p / period) = p % period := by omega
  rw [hsub]
  have htriv : (0 ≤ p ∧ period * (p / period) < N ∧ p < buf.size) ↔
      (period * (p / period) < N ∧ p < buf.size) := by
    constructor
    · rintro ⟨_, h2, h3⟩; exact ⟨h2, h3⟩
    · rintro ⟨h2, h3⟩; exact ⟨Nat.zero_le p, h2, h3⟩
  rw [if_congr htriv rfl rfl]

theorem ScanExclusiveCPUPeriodicInPlace_size (period N : Nat) (buf : Array Int) :
    (ScanExclusiveCPUPeriodicInPlace period buf N).size = buf.size :=
  periodicOuter_size _ N period
    (fun i b => by
      simp only [exclInPlaceInner_eq i period 0 0 b b (fun _ _ => rfl)]
      exact exclInner_size b i period 0 0 b) N 0 buf

theorem ScanInclusiveCPUPeriodicInPlace_size (period N : Nat) (buf : Array Int) :
    (ScanInclusiveCPUPeriodicInPlace period buf N).size = buf.size :=
  periodicOuter_size _ N period
    (fun i b => by
      simp only [inclInPlaceInner_eq i period 0 0 b b (fun _ _ => rfl)]
      exact inclInner_size b i period 0 0 b) N 0 buf

/-- Modelled from the spec: scanBlock of scanBlock.cuh is not under src/.
Per spec sections 4.1-4.2 the block scan leaves every lane holding the
inclusive prefix sum of the block segment up to that lane, and after the
inclusive pass plus a barrier the shared slot of lane tid holds exactly that
inclusive value.  blockInclusiveAt inA base tid is that value for the input
segment starting at base. -/
def blockInclusiveAt (inA : Array Int) (base tid : Nat) : Int :=
  rangeSum (fun t => inA.getD t 0) base (tid + 1)

/-- Per-thread result of the ScanGPUBlock kernel body (testScanBlock.cu lines
177-184): myValue = scanBlock(sPartials+tid, ...); for Exclusive, after a
barrier, myValue = tid ? sPartials[tid-1] : 0, where the slot contents after
the inclusive pass are given by blockInclusiveAt. -/
def scanGPUBlockValue (st : ScanType) (inA : Array Int) (base tid : Nat) : Int :=
  match st with
  | ScanType.Inclusive => blockInclusiveAt inA base tid
  | ScanType.Exclusive => if tid = 0 then 0 else blockInclusiveAt inA base (tid - 1)

/-- Modelled from the spec: inclusive_scan_block of the shuffle header is not
under src/; per spec section 4.2 it returns the inclusive block-wide prefix
sum of the per-lane values, here of the input segment starting at base. -/
def inclusiveScanBlockShuffle (inA : Array Int) (base tid : Nat) : Int :=
  rangeSum (fun t => inA.getD t 0) base (tid + 1)

/-- Modelled from the spec: exclusive_scan_block of the shuffle header is not
under src/; per spec section 4.2 it returns the exclusive block-wide prefix
sum (the identity 0 at lane 0). -/
def exclusiveScanBlockShuffle (inA : Array Int) (base tid : Nat) : Int :=
  rangeSum (fun t => inA.getD t 0) base tid

/-- Per-thread result of the ScanGPUBlockShuffle kernel body (lines 208-219). -/
def scanGPUBlockShuffleValue (st : ScanType) (inA : Array Int) (base tid : Nat) : Int :=
  match st with
  | ScanType.Exclusive => exclusiveScanBlockShuffle inA base tid
  | ScanType.Inclusive => inclusiveScanBlockShuffle inA base tid

/-- Number of blocks the host wrappers launch (lines 196-199):
cBlocks = N/150, capped at 150.  For N < 150 this is zero and the launch
performs no scan work. -/
def cBlocksOf (N : Nat) : Nat :=
  if N / 150 > 150 then 150 else N / 150

/-- Sequential model of one kernel launch with a given per-thread value
function v: block b runs its stride loop
for (i = b*blockDim; i < N; i += blockDim), each iteration writing the whole
segment via writeSeg.  rem counts the remaining blocks, in ascending index. -/
def gridRun (v : Nat → Nat → Int) (N B : Nat) : Nat → Nat → Array Int → Array Int
  | 0, _, out => out
  | rem+1, b, out =>
      gridRun v N B rem (b+1)
        (periodicOuter (fun s o => writeSeg v s B 0 o) N B N (b*B) out)

/-- Host wrapper ScanGPUBlock (lines 188-202): computes cBlocks and launches
the ScanGPUBlock kernel, with no validation of N or cThreads; C argument
order (out, in, N, cThreads). -/
def ScanGPUBlockHost (st : ScanType) (out inA : Array Int) (N cThreads : Nat) : Array Int :=
  gridRun (scanGPUBlockValue st inA) N cThreads (cBlocksOf N) 0 out

/-- Host wrapper ScanGPUBlockShuffle (lines 223-249): for cThreads 128, 256,
512 or 1024 it launches the shuffle kernel (logBlockSize 7..10, matching the
thread count); for any other thread count control falls through to launching
the shared-memory ScanGPUBlock kernel. -/
def ScanGPUBlockShuffleHost (st : ScanType) (out inA : Array Int) (N cThreads : Nat) :
    Array Int :=
  if cThreads = 128 ∨ cThreads = 256 ∨ cThreads = 512 ∨ cThreads = 1024 then
    gridRun (scanGPUBlockShuffleValue st inA) N cThreads (cBlocksOf N) 0 out
  else
    gridRun (scanGPUBlockValue st inA) N cThreads (cBlocksOf N) 0 out

theorem blockStride_size (v : Nat → Nat → Int) (N B : Nat) (i : Nat) (out : Array Int) :
    (periodicOuter (fun s o => writeSeg v s B 0 o) N B N i out).size = out.size :=
  periodicOuter_size _ N B (fun s o => writeSeg_size v s B 0 o) N i out

theorem gridRun_size (v : Nat → Nat → Int) (N B : Nat) :
    ∀ rem b out, (gridRun v N B rem b out).size = out.size := by
  intro rem
  induction rem with
  | zero => intro b out; rfl
  | succ rem ih =>
      intro b out
      simp only [gridRun]
      rw [ih, blockStride_size]

theorem blockStride_getD (v : Nat → Nat → Int) (N B : Nat) (hB : 0 < B)
    (i : Nat) (out : Array Int) (p : Nat) :
    (periodicOuter (fun s o => writeSeg v s B 0 o) N B N i out).getD p 0 =
      if i ≤ p ∧ i + B * ((p - i) / B) < N ∧ p < out.size
      then v (i + B * ((p - i) / B)) (p - (i + B * ((p - i) / B)))
      else out.getD p 0 := by
  have hsize : ∀ s (o : Array Int), (writeSeg v s B 0 o).size = o.size :=
    fun s o => writeSeg_size v s B 0 o
  have hstep : ∀ s (o : Array Int) q,
      (writeSeg v s B 0 o).getD q 0 =
        if s ≤ q ∧ q < s + B ∧ q < o.size
        then (fun s (_ : Array Int) q => v s (q - s)) s o q
        else o.getD q 0 := by
    intro s o q
    have h := writeSeg_getD v s B 0 o q
    simpa using h
  have hsv : ∀ s (o o' : Array Int) q, (∀ r, s ≤ r → o.getD r 0 = o'.getD r 0) →
      (fun s (_ : Array Int) q => v s (q - s)) s o q =
      (fun s (_ : Array Int) q => v s (q - s)) s o' q :=
    fun _ _ _ _ _ => rfl
  have hfuel : N ≤ i + N * B := by
    have h := Nat.mul_le_mul_left N hB
    simp at h
    omega
  exact periodicOuter_getD _ N B _ hB hsize hstep hsv N i out p hfuel

theorem gridRun_getD (v : Nat → Nat → Int) (N B : Nat) (hB : 0 < B) :
    ∀ rem b out p,
      (gridRun v N B rem b out).getD p 0 =
        if 1 ≤ rem ∧ b * B ≤ p ∧ B * (p / B) < N ∧ p < out.size
        then v (B * (p / B)) (p % B)
        else out.getD p 0 := by
  intro rem
  induction rem with
  | zero =>
      intro b out p
      simp only [gridRun]
      have hc : ¬ (1 ≤ 0 ∧ b * B ≤ p ∧ B * (p / B) < N ∧ p < out.size) := by omega
      rw [if_neg hc]
  | succ rem ih =>
      intro b out p
      simp only [gridRun]
      rw [ih]
      rw [blockStride_size]
      by_cases hbp : b * B ≤ p
      · have hstart : b * B + B * ((p - b * B) / B) = B * (p / B) := by
          have h1 : p = (p - b * B) + b * B := by omega
          have h2 : p / B = (p - b * B) / B + b := by
            conv_lhs => rw [h1]
            rw [Nat.add_mul_div_right _ _ hB]
          rw [h2]
          ring
        have hsub : p - (b * B + B * ((p - b * B) / B)) = p % B := by
          have hmod := Nat.mod_add_div p B
          omega
        by_cases hIH : 1 ≤ rem ∧ (b+1) * B ≤ p ∧ B * (p / B) < N ∧ p < out.size
        · rw [if_pos hIH]
          have hg : 1 ≤ rem + 1 ∧ b * B ≤ p ∧ B * (p / B) < N ∧ p < out.size := by
            refine ⟨by omega, hbp, hIH.2.2⟩
          rw [if_pos hg]
        · rw [if_neg hIH]
          rw [blockStride_getD v N B hB]
          by_cases hcov : B * (p / B) < N ∧ p < out.size
          · have hc2 : b * B ≤ p ∧ b * B + B * ((p - b * B) / B) < N ∧ p < out.size := by
              refine ⟨hbp, ?_, hcov.2⟩
              rw [hstart]
              exact hcov.1
            rw [if_pos hc2, hsub, hstart]
            have hg : 1 ≤ rem + 1 ∧ b * B ≤ p ∧ B * (p / B) < N ∧ p < out.size := by
              exact ⟨by omega, hbp, hcov.1, hcov.2⟩
            rw [if_pos hg]
          · have hc2 : ¬ (b * B ≤ p ∧ b * B + B * ((p - b * B) / B) < N ∧ p < out.size) := by
              rintro ⟨h1, h2, h3⟩
              rw [hstart] at h2
              exact hcov ⟨h2, h3⟩
            rw [if_neg hc2]
            have hg : ¬ (1 ≤ rem + 1 ∧ b * B ≤ p ∧ B * (p / B) < N ∧ p < out.size) := by
              rintro ⟨_, _, h3, h4⟩
              exact hcov ⟨h3, h4⟩
            rw [if_neg hg]
      · have hIH : ¬ (1 ≤ rem ∧ (b+1) * B ≤ p ∧ B * (p / B) < N ∧ p < out.size) := by
          rintro ⟨_, h2, _, _⟩
          have : b * B ≤ (b + 1) * B := by
            have : b ≤ b + 1 := by omega
            exact Nat.mul_le_mul_right B this
          omega
        rw [if_neg hIH]
        rw [blockStride_getD v N B hB]
        have hc2 : ¬ (b * B ≤ p ∧ b * B + B * ((p - b * B) / B) < N ∧ p < out.size) := by
          rintro ⟨h1, _, _⟩
          exact hbp h1
        rw [if_neg hc2]
        have hg : ¬ (1 ≤ rem + 1 ∧ b * B ≤ p ∧ B * (p / B) < N ∧ p < out.size) := by
          rintro ⟨_, h2, _, _⟩
          exact hbp h2
        rw [if_neg hg]

/-- RandomArray (testScanBlock.cu lines 125-131): out[i] = rand() % modulus
for every i < N.  The stream of rand() results is modelled by rnd, so that
two runs with different seeds are two different streams. -/
def RandomArrayLoop (rnd : Nat → Int) (modulus : Int) : Nat → Nat → Array Int → Array Int
  | 0, _, out => out
  | rem+1, idx, out =>
      RandomArrayLoop rnd modulus rem (idx+1) (out.setD idx (rnd idx % modulus))

/-- RandomArray with the C argument order (out, N, modulus). -/
def RandomArray (rnd : Nat → Int) (out : Array Int) (N : Nat) (modulus : Int) : Array Int :=
  RandomArrayLoop rnd modulus N 0 out

/-- The loop of TestScanBlock at lines 437-439: inCPU[i] = i for i < N,
run immediately after RandomArray. -/
def overwriteIotaLoop : Nat → Nat → Array Int → Array Int
  | 0, _, out => out
  | rem+1, idx, out => overwriteIotaLoop rem (idx+1) (out.setD idx (Int.ofNat idx))

/-- The input-preparation steps of TestScanBlock (lines 436-439): fill the
input buffer with random values, then overwrite entry i with i. -/
def testScanBlockInput (rnd : Nat → Int) (buf : Array Int) (N : Nat) : Array Int :=
  overwriteIotaLoop N 0 (RandomArray rnd buf N 256)

theorem RandomArrayLoop_size (rnd : Nat → Int) (modulus : Int) :
    ∀ rem idx out, (RandomArrayLoop rnd modulus rem idx out).size = out.size := by
  intro rem
  induction rem with
  | zero => intro idx out; rfl
  | succ rem ih =>
      intro idx out
      simp only [RandomArrayLoop]
      rw [ih, Array.size_setD]

theorem overwriteIotaLoop_size :
    ∀ rem idx out, (overwriteIotaLoop rem idx out).size = out.size := by
  intro rem
  induction rem with
  | zero => intro idx out; rfl
  | succ rem ih =>
      intro idx out
      simp only [overwriteIotaLoop]
      rw [ih, Array.size_setD]

theorem overwriteIotaLoop_getD :
    ∀ rem idx out p,
      (overwriteIotaLoop rem idx out).getD p 0 =
        if idx ≤ p ∧ p < idx + rem ∧ p < out.size
        then Int.ofNat p
        else out.getD p 0 := by
  intro rem
  induction rem with
  | zero =>
      intro idx out p
      simp only [overwriteIotaLoop]
      have hc : ¬ (idx ≤ p ∧ p < idx + 0 ∧ p < out.size) := by omega
      rw [if_neg hc]
  | succ rem ih =>
      intro idx out p
      simp only [overwriteIotaLoop]
      rw [ih]
      rw [Array.size_setD]
      by_cases hA : idx + 1 ≤ p ∧ p < idx + 1 + rem ∧ p < out.size
      · rw [if_pos hA]
        have hB2 : idx ≤ p ∧ p < idx + (rem+1) ∧ p < out.size := by omega
        rw [if_pos hB2]
      · rw [if_neg hA]
        rw [arrGetD_setD]
        by_cases hE : p = idx ∧ p < out.size
        · rw [if_pos hE]
          have hB2 : idx ≤ p ∧ p < idx + (rem+1) ∧ p < out.size := by omega
          rw [if_pos hB2]
          rw [hE.1]
        · rw [if_neg hE]
          have hB2 : ¬ (idx ≤ p ∧ p < idx + (rem+1) ∧ p < out.size) := by omega
          rw [if_neg hB2]

/-- Claim C1: for every input array of integers and every positive period B
with N a multiple of B, the CPU reference scans produce the segmented
periodic scan: the inclusive output at position p equals the sum of the
inputs from the start of the period of p through p, and the exclusive output
equals the sum of that period strictly before p, resetting to zero at every
period boundary. -/
theorem claim_C1_cpu_periodic_reference (B N : Nat) (inA out : Array Int)
    (hB : 0 < B) (_hmul : N % B = 0) (hsize : N ≤ out.size) (p : Nat) (hp : p < N) :
    (ScanInclusiveCPUPeriodic B out inA N).getD p 0
      = rangeSum (fun t => inA.getD t 0) (B * (p / B)) (p % B + 1)
    ∧ (ScanExclusiveCPUPeriodic B out inA N).getD p 0
      = rangeSum (fun t => inA.getD t 0) (B * (p / B)) (p % B) := by
  have hstart : B * (p / B) ≤ p := by
    have h := Nat.mod_add_div p B
    omega
  have hcond : B * (p / B) < N ∧ p < out.size := ⟨by omega, by omega⟩
  constructor
  · rw [ScanInclusiveCPUPeriodic_getD B N inA out hB p, if_pos hcond]
  · rw [ScanExclusiveCPUPeriodic_getD B N inA out hB p, if_pos hcond]

theorem claim_C1_witness :
    ((0:Nat) < 2 ∧ (4:Nat) % 2 = 0 ∧ 4 ≤ (Array.mkArray 4 (0:Int)).size ∧ (3:Nat) < 4)
    ∧ ((ScanInclusiveCPUPeriodic 2 (Array.mkArray 4 (0:Int)) (Array.mkArray 4 (1:Int)) 4).getD 3 0
        = rangeSum (fun t => (Array.mkArray 4 (1:Int)).getD t 0) (2 * (3 / 2)) (3 % 2 + 1)
      ∧ (ScanExclusiveCPUPeriodic 2 (Array.mkArray 4 (0:Int)) (Array.mkArray 4 (1:Int)) 4).getD 3 0
        = rangeSum (fun t => (Array.mkArray 4 (1:Int)).getD t 0) (2 * (3 / 2)) (3 % 2)) :=
  ⟨⟨by decide, by decide, by decide, by decide⟩,
   claim_C1_cpu_periodic_reference 2 4 (Array.mkArray 4 (1:Int)) (Array.mkArray 4 (0:Int))
     (by decide) (by decide) (by decide) 3 (by decide)⟩

/-- Claim C7: after the inclusive periodic scan, the value at the last
position of every period of B elements equals the total of the B inputs of
that period. -/
theorem claim_C7_period_total (B N k : Nat) (inA out : Array Int)
    (hB : 0 < B) (_hmul : N % B = 0) (hsize : N ≤ out.size) (hk : (k + 1) * B ≤ N) :
    (ScanInclusiveCPUPeriodic B out inA N).getD (k * B + (B - 1)) 0
      = rangeSum (fun t => inA.getD t 0) (k * B) B := by
  have h1 : (k + 1) * B = k * B + B := by ring
  have h2 : B * k = k * B := by ring
  have h3 : k * B + (B - 1) = (B - 1) + B * k := by
    rw [h2]
    exact Nat.add_comm _ _
  have hdiv : (k * B + (B - 1)) / B = k := by
    rw [h3, Nat.add_mul_div_left _ _ hB, Nat.div_eq_of_lt (by omega)]
    omega
  have hmod : (k * B + (B - 1)) % B = B - 1 := by
    rw [h3, Nat.add_mul_mod_self_left, Nat.mod_eq_of_lt (by omega)]
  rw [ScanInclusiveCPUPeriodic_getD B N inA out hB (k * B + (B - 1))]
  rw [hdiv, hmod]
  have hcond : B * k < N ∧ k * B + (B - 1) < out.size := by
    constructor
    · omega
    · omega
  rw [if_pos hcond]
  rw [show B - 1 + 1 = B from by omega, h2]

theorem claim_C7_witness :
    ((0:Nat) < 2 ∧ (4:Nat) % 2 = 0 ∧ 4 ≤ (Array.mkArray 4 (0:Int)).size
      ∧ (1 + 1) * 2 ≤ (4:Nat))
    ∧ (ScanInclusiveCPUPeriodic 2 (Array.mkArray 4 (0:Int)) (Array.mkArray 4 (1:Int)) 4).getD
        (1 * 2 + (2 - 1)) 0
      = rangeSum (fun t => (Array.mkArray 4 (1:Int)).getD t 0) (1 * 2) 2 :=
  ⟨⟨by decide, by decide, by decide, by decide⟩,
   claim_C7_period_total 2 4 1 (Array.mkArray 4 (1:Int)) (Array.mkArray 4 (0:Int))
     (by decide) (by decide) (by decide) (by decide)⟩

/-- Claim C8: for every input array and every positive period B, the
exclusive periodic scan writes 0 at the first position of every period
(positions 0, B, 2B, ...) that the scan reaches, regardless of the input
values. -/
theorem claim_C8_period_start_zero (B N k : Nat) (inA out : Array Int)
    (hB : 0 < B) (hkN : k * B < N) (hsz : k * B < out.size) :
    (ScanExclusiveCPUPeriodic B out inA N).getD (k * B) 0 = 0 := by
  have hdiv : k * B / B = k := by
    have h := Nat.add_mul_div_left 0 k hB
    rw [Nat.mul_comm]
    simpa using h
  have hmod : k * B % B = 0 := Nat.mul_mod_left k B
  rw [ScanExclusiveCPUPeriodic_getD B N inA out hB (k * B)]
  rw [hdiv, hmod]
  have hcond : B * k < N ∧ k * B < out.size := by
    constructor
    · rw [Nat.mul_comm]
      exact hkN
    · exact hsz
  rw [if_pos hcond]
  rfl

theorem claim_C8_witness :
    ((0:Nat) < 2 ∧ 1 * 2 < (4:Nat) ∧ 1 * 2 < (Array.mkArray 4 (0:Int)).size)
    ∧ (ScanExclusiveCPUPeriodic 2 (Array.mkArray 4 (0:Int)) (Array.mkArray 4 (5:Int)) 4).getD
        (1 * 2) 0 = 0 :=
  ⟨⟨by decide, by decide, by decide⟩,
   claim_C8_period_start_zero 2 4 1 (Array.mkArray 4 (5:Int)) (Array.mkArray 4 (0:Int))
     (by decide) (by decide) (by decide)⟩

/-- Claim C9: both CPU reference scans can be run in place: on an input
whose length is a multiple of the period, the aliased call (out == in)
produces exactly the array that the two-buffer call produces from the same
input, whatever the initial contents of the distinct output buffer. -/
theorem claim_C9_inplace_equivalence (B N : Nat) (buf out0 : Array Int)
    (hB : 0 < B) (_hmul : N % B = 0) (hbuf : buf.size = N) (hout : out0.size = N) :
    ScanExclusiveCPUPeriodicInPlace B buf N = ScanExclusiveCPUPeriodic B out0 buf N
    ∧ ScanInclusiveCPUPeriodicInPlace B buf N = ScanInclusiveCPUPeriodic B out0 buf N := by
  have hstart : ∀ p : Nat, B * (p / B) ≤ p := by
    intro p
    have h := Nat.mod_add_div p B
    omega
  constructor
  · apply Array.ext
    · rw [ScanExclusiveCPUPeriodicInPlace_size, ScanExclusiveCPUPeriodic_size, hbuf, hout]
    · intro p h1 h2
      have hpN : p < N := by
        rw [ScanExclusiveCPUPeriodicInPlace_size, hbuf] at h1
        exact h1
      rw [← arrGetD_eq_getElem _ p h1, ← arrGetD_eq_getElem _ p h2]
      rw [ScanExclusiveCPUPeriodicInPlace_getD B N buf hB p,
          ScanExclusiveCPUPeriodic_getD B N buf out0 hB p]
      have hs := hstart p
      have hc1 : B * (p / B) < N ∧ p < buf.size := ⟨by omega, by omega⟩
      have hc2 : B * (p / B) < N ∧ p < out0.size := ⟨by omega, by omega⟩
      rw [if_pos hc1, if_pos hc2]
  · apply Array.ext
    · rw [ScanInclusiveCPUPeriodicInPlace_size, ScanInclusiveCPUPeriodic_size, hbuf, hout]
    · intro p h1 h2
      have hpN : p < N := by
        rw [ScanInclusiveCPUPeriodicInPlace_size, hbuf] at h1
        exact h1
      rw [← arrGetD_eq_getElem _ p h1, ← arrGetD_eq_getElem _ p h2]
      rw [ScanInclusiveCPUPeriodicInPlace_getD B N buf hB p,
          ScanInclusiveCPUPeriodic_getD B N buf out0 hB p]
      have hs := hstart p
      have hc1 : B * (p / B) < N ∧ p < buf.size := ⟨by omega, by omega⟩
      have hc2 : B * (p / B) < N ∧ p < out0.size := ⟨by omega, by omega⟩
      rw [if_pos hc1, if_pos hc2]

theorem claim_C9_witness :
    ((0:Nat) < 2 ∧ (4:Nat) % 2 = 0 ∧ (Array.mkArray 4 (3:Int)).size = 4
      ∧ (Array.mkArray 4 (9:Int)).size = 4)
    ∧ (ScanExclusiveCPUPeriodicInPlace 2 (Array.mkArray 4 (3:Int)) 4
        = ScanExclusiveCPUPeriodic 2 (Array.mkArray 4 (9:Int)) (Array.mkArray 4 (3:Int)) 4
      ∧ ScanInclusiveCPUPeriodicInPlace 2 (Array.mkArray 4 (3:Int)) 4
        = ScanInclusiveCPUPeriodic 2 (Array.mkArray 4 (9:Int)) (Array.mkArray 4 (3:Int)) 4) :=
  ⟨⟨by decide, by decide, by decide, by decide⟩,
   claim_C9_inplace_equivalence 2 4 (Array.mkArray 4 (3:Int)) (Array.mkArray 4 (9:Int))
     (by decide) (by decide) (by decide) (by decide)⟩

/-- Claim C10: the input that TestScanBlock feeds to both scans does not
depend on the random number generator: the randomly generated values are
overwritten with 0, 1, ..., N-1 before any scan runs, so two runs with
different random streams prepare the same deterministic input array. -/
theorem claim_C10_rng_independent (rnd1 rnd2 : Nat → Int) (N : Nat)
    (buf1 buf2 : Array Int) (h1 : buf1.size = N) (h2 : buf2.size = N) :
    testScanBlockInput rnd1 buf1 N = testScanBlockInput rnd2 buf2 N
    ∧ ∀ p, p < N → (testScanBlockInput rnd1 buf1 N).getD p 0 = Int.ofNat p := by
  have hval : ∀ (rnd : Nat → Int) (buf : Array Int), buf.size = N → ∀ p, p < N →
      (testScanBlockInput rnd buf N).getD p 0 = Int.ofNat p := by
    intro rnd buf hb p hp
    unfold testScanBlockInput RandomArray
    rw [overwriteIotaLoop_getD]
    have hsz : p < (RandomArrayLoop rnd 256 N 0 buf).size := by
      rw [RandomArrayLoop_size]
      omega
    rw [if_pos ⟨Nat.zero_le p, by omega, hsz⟩]
  have hsizes : ∀ (rnd : Nat → Int) (buf : Array Int),
      (testScanBlockInput rnd buf N).size = buf.size := by
    intro rnd buf
    unfold testScanBlockInput RandomArray
    rw [overwriteIotaLoop_size, RandomArrayLoop_size]
  constructor
  · apply Array.ext
    · rw [hsizes, hsizes, h1, h2]
    · intro p hp1 hp2
      have hpN : p < N := by
        rw [hsizes, h1] at hp1
        exact hp1
      rw [← arrGetD_eq_getElem _ p hp1, ← arrGetD_eq_getElem _ p hp2,
          hval rnd1 buf1 h1 p hpN, hval rnd2 buf2 h2 p hpN]
  · exact hval rnd1 buf1 h1

theorem claim_C10_witness :
    ((Array.mkArray 3 (9:Int)).size = 3 ∧ (Array.mkArray 3 (8:Int)).size = 3)
    ∧ (testScanBlockInput (fun _ => (7:Int)) (Array.mkArray 3 (9:Int)) 3
        = testScanBlockInput (fun n => Int.ofNat n) (Array.mkArray 3 (8:Int)) 3
      ∧ ∀ p, p < 3 →
          (testScanBlockInput (fun _ => (7:Int)) (Array.mkArray 3 (9:Int)) 3).getD p 0
            = Int.ofNat p) :=
  ⟨⟨by decide, by decide⟩,
   claim_C10_rng_independent (fun _ => (7:Int)) (fun n => Int.ofNat n) 3
     (Array.mkArray 3 (9:Int)) (Array.mkArray 3 (8:Int)) (by decide) (by decide)⟩

/-- Claim C3 counterexample: ScanCPUBlock has no case for numThreads = 128,
so with block size 128 and 128 elements it returns without writing: with
input all ones the periodic inclusive scan would put 1 at position 0, but
the output keeps its initial value 0. -/
theorem claim_C3_counterexample :
    ¬ ((ScanCPUBlock ScanType.Inclusive (Array.mkArray 128 (0:Int))
          (Array.mkArray 128 (1:Int)) 128 128).getD 0 0
        = rangeSum (fun t => (Array.mkArray 128 (1:Int)).getD t 0)
            (128 * (0 / 128)) (0 % 128 + 1)) := by
  decide

/-- Claim C3 amended: for every block size B in {256, 512, 1024}, every scan
type and every input whose length is a multiple of B, ScanCPUBlock with
numThreads = B writes the periodic scan with period B; with numThreads = 128
it hits the default switch case and returns the output untouched, so 128 is
not a supported CPU reference size. -/
theorem claim_C3_cpu_block_dispatch (st : ScanType) (inA out : Array Int) (N B : Nat)
    (hB : B = 256 ∨ B = 512 ∨ B = 1024) (_hmul : N % B = 0) (hsize : N ≤ out.size) :
    (∀ p, p < N → (ScanCPUBlock st out inA N B).getD p 0 =
        (match st with
         | ScanType.Inclusive =>
             rangeSum (fun t => inA.getD t 0) (B * (p / B)) (p % B + 1)
         | ScanType.Exclusive =>
             rangeSum (fun t => inA.getD t 0) (B * (p / B)) (p % B)))
    ∧ ScanCPUBlock st out inA N 128 = out := by
  constructor
  · intro p hp
    have hstart : B * (p / B) ≤ p := by
      have h := Nat.mod_add_div p B
      omega
    have hcond : B * (p / B) < N ∧ p < out.size := ⟨by omega, by omega⟩
    rcases hB with h | h | h <;> subst h <;> cases st
    · rw [show ScanCPUBlock ScanType.Inclusive out inA N 256
          = ScanInclusiveCPUPeriodic 256 out inA N from rfl]
      rw [ScanInclusiveCPUPeriodic_getD 256 N inA out (by omega) p, if_pos hcond]
    · rw [show ScanCPUBlock ScanType.Exclusive out inA N 256
          = ScanExclusiveCPUPeriodic 256 out inA N from rfl]
      rw [ScanExclusiveCPUPeriodic_getD 256 N inA out (by omega) p, if_pos hcond]
    · rw [show ScanCPUBlock ScanType.Inclusive out inA N 512
          = ScanInclusiveCPUPeriodic 512 out inA N from rfl]
      rw [ScanInclusiveCPUPeriodic_getD 512 N inA out (by omega) p, if_pos hcond]
    · rw [show ScanCPUBlock ScanType.Exclusive out inA N 512
          = ScanExclusiveCPUPeriodic 512 out inA N from rfl]
      rw [ScanExclusiveCPUPeriodic_getD 512 N inA out (by omega) p, if_pos hcond]
    · rw [show ScanCPUBlock ScanType.Inclusive out inA N 1024
          = ScanInclusiveCPUPeriodic 1024 out inA N from rfl]
      rw [ScanInclusiveCPUPeriodic_getD 1024 N inA out (by omega) p, if_pos hcond]
    · rw [show ScanCPUBlock ScanType.Exclusive out inA N 1024
          = ScanExclusiveCPUPeriodic 1024 out inA N from rfl]
      rw [ScanExclusiveCPUPeriodic_getD 1024 N inA out (by omega) p, if_pos hcond]
  · cases st <;> rfl

theorem claim_C3_witness :
    (((256:Nat) = 256 ∨ (256:Nat) = 512 ∨ (256:Nat) = 1024) ∧ (256:Nat) % 256 = 0
      ∧ 256 ≤ (Array.mkArray 256 (0:Int)).size)
    ∧ ((∀ p, p < 256 →
          (ScanCPUBlock ScanType.Inclusive (Array.mkArray 256 (0:Int))
              (Array.mkArray 256 (1:Int)) 256 256).getD p 0 =
            (match ScanType.Inclusive with
             | ScanType.Inclusive =>
                 rangeSum (fun t => (Array.mkArray 256 (1:Int)).getD t 0)
                   (256 * (p / 256)) (p % 256 + 1)
             | ScanType.Exclusive =>
                 rangeSum (fun t => (Array.mkArray 256 (1:Int)).getD t 0)
                   (256 * (p / 256)) (p % 256)))
      ∧ ScanCPUBlock ScanType.Inclusive (Array.mkArray 256 (0:Int))
          (Array.mkArray 256 (1:Int)) 256 128 = Array.mkArray 256 (0:Int)) :=
  ⟨⟨Or.inl rfl, by decide, by decide⟩,
   claim_C3_cpu_block_dispatch ScanType.Inclusive (Array.mkArray 256 (1:Int))
     (Array.mkArray 256 (0:Int)) 256 256 (Or.inl rfl) (by decide) (by decide)⟩

/-- Claim C2 counterexample: with block size 128 and N = 128 (a multiple of
the block size) the host wrapper computes cBlocks = 128/150 = 0 and launches
no block, so nothing is written: with input all ones the segment local
inclusive scan value at position 0 would be 1, but the output keeps its
initial value 0. -/
theorem claim_C2_counterexample :
    ¬ ((ScanGPUBlockHost ScanType.Inclusive (Array.mkArray 128 (0:Int))
          (Array.mkArray 128 (1:Int)) 128 128).getD 0 0
        = rangeSum (fun t => (Array.mkArray 128 (1:Int)).getD t 0)
            (128 * (0 / 128)) (0 % 128 + 1)) := by
  decide

/-- Claim C2 amended: for every input of length N a multiple of the block
size B with N at least 150 (so that the cBlocks = N/150 computation launches
at least one block), the driver writes to every output position in [0, N)
the local scan value of its own segment of B elements, not a globally
accumulated scan, for both scan types. -/
theorem claim_C2_segmented_driver (st : ScanType) (inA out : Array Int) (N B : Nat)
    (hB : 0 < B) (_hmul : N % B = 0) (h150 : 150 ≤ N) (hsize : N ≤ out.size)
    (p : Nat) (hp : p < N) :
    (ScanGPUBlockHost st out inA N B).getD p 0 =
      (match st with
       | ScanType.Inclusive =>
           rangeSum (fun t => inA.getD t 0) (B * (p / B)) (p % B + 1)
       | ScanType.Exclusive =>
           rangeSum (fun t => inA.getD t 0) (B * (p / B)) (p % B)) := by
  have hcb : 1 ≤ cBlocksOf N := by
    unfold cBlocksOf
    have h1 : 1 ≤ N / 150 := (Nat.one_le_div_iff (by omega)).mpr h150
    split
    · omega
    · exact h1
  unfold ScanGPUBlockHost
  rw [gridRun_getD (scanGPUBlockValue st inA) N B hB (cBlocksOf N) 0 out p]
  have hstart : B * (p / B) ≤ p := by
    have h := Nat.mod_add_div p B
    omega
  have hcond : 1 ≤ cBlocksOf N ∧ 0 * B ≤ p ∧ B * (p / B) < N ∧ p < out.size :=
    ⟨hcb, by omega, by omega, by omega⟩
  rw [if_pos hcond]
  cases st
  · rfl
  · simp only [scanGPUBlockValue]
    by_cases h0 : p % B = 0
    · rw [if_pos h0, h0]
      rfl
    · rw [if_neg h0]
      unfold blockInclusiveAt
      rw [show p % B - 1 + 1 = p % B from by omega]

theorem claim_C2_witness :
    ((0:Nat) < 256 ∧ (256:Nat) % 256 = 0 ∧ (150:Nat) ≤ 256
      ∧ 256 ≤ (Array.mkArray 256 (0:Int)).size ∧ (5:Nat) < 256)
    ∧ (ScanGPUBlockHost ScanType.Inclusive (Array.mkArray 256 (0:Int))
          (Array.mkArray 256 (1:Int)) 256 256).getD 5 0 =
        (match ScanType.Inclusive with
         | ScanType.Inclusive =>
             rangeSum (fun t => (Array.mkArray 256 (1:Int)).getD t 0)
               (256 * (5 / 256)) (5 % 256 + 1)
         | ScanType.Exclusive =>
             rangeSum (fun t => (Array.mkArray 256 (1:Int)).getD t 0)
               (256 * (5 / 256)) (5 % 256)) :=
  ⟨⟨by decide, by decide, by decide, by decide, by decide⟩,
   claim_C2_segmented_driver ScanType.Inclusive (Array.mkArray 256 (1:Int))
     (Array.mkArray 256 (0:Int)) 256 256 (by decide) (by decide) (by decide)
     (by decide) 5 (by decide)⟩

/-- Claim C4 counterexample: called with N = 150 and block size 256, where N
is not a multiple of the block size, the driver does not reject the call: it
launches one block and the scan writes the output (position 0 goes from its
initial 0 to the scan value 1). -/
theorem claim_C4_counterexample :
    ¬ ((150:Nat) % 256 = 0)
    ∧ (ScanGPUBlockHost ScanType.Inclusive (Array.mkArray 150 (0:Int))
        (Array.mkArray 150 (1:Int)) 150 256).getD 0 0 = 1
    ∧ (Array.mkArray 150 (0:Int)).getD 0 0 = 0 := by
  refine ⟨by decide, ?_, by decide⟩
  decide

/-- Claim C4 amended: the driver performs no precondition validation at all.
Whenever N is large enough that cBlocks = N/150 configures at least one
block, it launches the kernel even when N is not a multiple of the block
size (and with any block size, power of two or not), and scan output is
written — position 0 receives the inclusive scan value in[0] — instead of
the call being rejected before launch. -/
theorem claim_C4_no_validation (inA out : Array Int) (N B : Nat)
    (hB : 0 < B) (_hinvalid : ¬ (N % B = 0)) (h150 : 150 ≤ N) (hsz : 0 < out.size) :
    (ScanGPUBlockHost ScanType.Inclusive out inA N B).getD 0 0 = inA.getD 0 0 := by
  have hcb : 1 ≤ cBlocksOf N := by
    unfold cBlocksOf
    have h1 : 1 ≤ N / 150 := (Nat.one_le_div_iff (by omega)).mpr h150
    split
    · omega
    · exact h1
  unfold ScanGPUBlockHost
  rw [gridRun_getD (scanGPUBlockValue ScanType.Inclusive inA) N B hB (cBlocksOf N) 0 out 0]
  have hz : B * (0 / B) = 0 := by
    rw [Nat.zero_div, Nat.mul_zero]
  have hcond : 1 ≤ cBlocksOf N ∧ 0 * B ≤ 0 ∧ B * (0 / B) < N ∧ 0 < out.size := by
    refine ⟨hcb, by omega, ?_, hsz⟩
    rw [hz]
    omega
  rw [if_pos hcond, hz, Nat.zero_mod]
  simp [scanGPUBlockValue, blockInclusiveAt, rangeSum]

theorem claim_C4_witness :
    ((0:Nat) < 256 ∧ ¬ ((150:Nat) % 256 = 0) ∧ (150:Nat) ≤ 150
      ∧ 0 < (Array.mkArray 150 (0:Int)).size)
    ∧ (ScanGPUBlockHost ScanType.Inclusive (Array.mkArray 150 (0:Int))
        (Array.mkArray 150 (2:Int)) 150 256).getD 0 0
      = (Array.mkArray 150 (2:Int)).getD 0 0 :=
  ⟨⟨by decide, by decide, by decide, by decide⟩,
   claim_C4_no_validation (Array.mkArray 150 (2:Int)) (Array.mkArray 150 (0:Int)) 150 256
     (by decide) (by decide) (by decide) (by decide)⟩

/-- Claim C5: for every input array, scan type, element count and thread
count, the shared-memory block-scan path (ScanGPUBlock) and the shuffle
block-scan path (ScanGPUBlockShuffle) produce identical output arrays; in
particular this holds for the supported block sizes 128, 256, 512 and 1024,
and for other thread counts the shuffle wrapper itself falls back to the
shared-memory kernel. -/
theorem claim_C5_shuffle_equals_shared (st : ScanType) (out inA : Array Int)
    (N cThreads : Nat) :
    ScanGPUBlockShuffleHost st out inA N cThreads
      = ScanGPUBlockHost st out inA N cThreads := by
  have hv : scanGPUBlockShuffleValue st inA = scanGPUBlockValue st inA := by
    funext base tid
    cases st
    · rfl
    · simp only [scanGPUBlockShuffleValue, scanGPUBlockValue,
        exclusiveScanBlockShuffle, blockInclusiveAt]
      by_cases h0 : tid = 0
      · rw [if_pos h0, h0]
        rfl
      · rw [if_neg h0, show tid - 1 + 1 = tid from by omega]
  unfold ScanGPUBlockShuffleHost ScanGPUBlockHost
  rw [hv]
  split
  · rfl
  · rfl

/-- Definition taken from the wording of the spec (section 4.2), for
comparison with the kernel: the exclusive value of a lane obtained by
converting the lane's own inclusive result to exclusive, i.e. subtracting
the lane's own input from its inclusive scan value. -/
def exclusiveViaOwnInclusive (inA : Array Int) (base tid : Nat) : Int :=
  blockInclusiveAt inA base tid - inA.getD (base + tid) 0

/-- Claim C6: the kernel Exclusive branch, in which lane tid reads the value
resident in shared slot tid-1 after the inclusive pass and a barrier (lane 0
taking the identity 0), yields exactly the exclusive scan of the segment,
which is also what converting each lane's own inclusive value to exclusive
yields. -/
theorem claim_C6_neighbor_slot_exclusive (inA : Array Int) (base tid : Nat) :
    scanGPUBlockValue ScanType.Exclusive inA base tid
      = rangeSum (fun t => inA.getD t 0) base tid
    ∧ scanGPUBlockValue ScanType.Exclusive inA base tid
      = exclusiveViaOwnInclusive inA base tid := by
  have h1 : scanGPUBlockValue ScanType.Exclusive inA base tid
      = rangeSum (fun t => inA.getD t 0) base tid := by
    simp only [scanGPUBlockValue, blockInclusiveAt]
    by_cases h0 : tid = 0
    · rw [if_pos h0, h0]
      rfl
    · rw [if_neg h0, show tid - 1 + 1 = tid from by omega]
  refine ⟨h1, ?_⟩
  rw [h1]
  unfold exclusiveViaOwnInclusive blockInclusiveAt
  rw [rangeSum]
  ring
